/-
Verification of the ProcBench specification against the repository code.

The repository under verification is the ProcBench analysis platform.  Its
checked-in sources are the SvelteKit frontend (graph utilities, upload
handling, API types, stores) plus documentation; the backend core that the
specification describes (capture decoder, process-tree builder, detection
engine, risk aggregator) is not present in the source tree, so those
components are modelled from the specification text and marked as such in
their doc comments.

Frontend functions are embedded faithfully from the TypeScript sources:
  - src/frontend/src/lib/components/visualization/graph-utils.ts
  - src/frontend/src/lib/components/upload/FileUpload.svelte
  - the shared API-types module (getRiskLevel) and the process search
    component (getRiskColor)
Purely presentational record fields (colors, font sizes, tooltip HTML,
floating-point node sizes) are omitted from the embedded records: they do
not affect any structural property stated here.
-/
import Mathlib

/-- JavaScript String.prototype.includes: substring containment, embedded as
contiguous-sublist containment of the character lists. -/
def strContains (s sub : String) : Bool :=
  decide (sub.data <:+: s.data)

/-- JavaScript String.prototype.toLowerCase, embedded as the per-character
case mapping over the character list. -/
def jsToLower (s : String) : String :=
  ⟨s.data.map Char.toLower⟩

/-- JavaScript String.prototype.trim: strip whitespace from both ends. -/
def jsTrim (s : String) : String :=
  ⟨((s.data.dropWhile Char.isWhitespace).reverse.dropWhile Char.isWhitespace).reverse⟩

/-- JavaScript String.prototype.split with a one-character separator,
embedded over the character list; an empty string splits to one empty
piece, as in JavaScript. -/
def splitOnChar (sep : Char) (l : List Char) : List (List Char) :=
  l.foldr
    (fun c acc =>
      match acc with
      | [] => [[c]]
      | cur :: rest => if c = sep then [] :: cur :: rest else (c :: cur) :: rest)
    [[]]

/-- JavaScript split of a string into string pieces. -/
def jsSplit (s : String) (sep : Char) : List String :=
  (splitOnChar sep s.data).map String.mk

namespace ApiTypes

/-- RiskLevel from the shared API-types module: type RiskLevel = high |
medium | low | none. -/
inductive RiskLevel where
  | high
  | medium
  | low
  | none
deriving DecidableEq, Repr

/-- getRiskLevel from the shared API-types module: score at least 50 is
high, at least 20 is medium, above 0 is low, otherwise none. -/
def getRiskLevel (score : Int) : RiskLevel :=
  if score ≥ 50 then .high
  else if score ≥ 20 then .medium
  else if score > 0 then .low
  else .none

end ApiTypes

namespace DesignTokens

/-- colors.risk.high from the design tokens module. -/
def risk_high : String := "#ef4444"

/-- colors.risk.medium from the design tokens module. -/
def risk_medium : String := "#f97316"

/-- colors.risk.low from the design tokens module. -/
def risk_low : String := "#eab308"

/-- colors.status.success from the design tokens module. -/
def status_success : String := "#22c55e"

end DesignTokens

namespace ProcessSearch

/-- getRiskColor from the process search component: score at least 70 maps
to the high risk color, at least 30 to the medium risk color, above 0 to
yellow, otherwise the success color. -/
def getRiskColor (score : Int) : String :=
  if score ≥ 70 then DesignTokens.risk_high
  else if score ≥ 30 then DesignTokens.risk_medium
  else if score > 0 then ("#eab308")
  else DesignTokens.status_success

/-- The legitimacy bucket implied by a risk color, stated from the claim
text: the high color means high, the medium color medium, yellow low, and
anything else none.  This is the claim-side reading used to compare the two
helpers. -/
def colorToLevel (c : String) : ApiTypes.RiskLevel :=
  if c = DesignTokens.risk_high then .high
  else if c = DesignTokens.risk_medium then .medium
  else if c = DesignTokens.risk_low then .low
  else .none

end ProcessSearch

namespace GraphUtils

/-- The process payload of a ProcessTreeNode as declared in the API-types
module (pid, process_name, image_path, risk_score, legitimacy,
behavior_tags, event_count). -/
structure ProcData where
  pid : Nat
  process_name : String
  image_path : Option String
  risk_score : Int
  legitimacy : String
  behavior_tags : List String
  event_count : Nat
deriving DecidableEq, Repr

/-- ProcessTreeNode: a process payload plus an ordered list of children. -/
inductive ProcessTreeNode where
  | mk (process : ProcData) (children : List ProcessTreeNode)

/-- Projection to the process payload. -/
def ProcessTreeNode.process : ProcessTreeNode → ProcData
  | .mk p _ => p

/-- Projection to the child list. -/
def ProcessTreeNode.children : ProcessTreeNode → List ProcessTreeNode
  | .mk _ c => c

/-- The entries produced by flattenTree: a node together with the PID of
the parent it was reached from (null for roots). -/
structure Flattened where
  node : ProcessTreeNode
  parentPid : Option Nat

/-- VisNode from graph-utils, restricted to its structural fields; the
color, font, border, shape and size fields are presentational and omitted. -/
structure VisNode where
  id : Nat
  label : String
  riskScore : Int
  legitimacy : String
  processName : String
  imagePath : Option String
  behaviorTags : List String
  eventCount : Nat
deriving DecidableEq, Repr

/-- VisEdge from graph-utils, restricted to its structural fields.  The
source field names from and to are Lean keywords, so they are embedded as
fromId and toId. -/
structure VisEdge where
  id : String
  fromId : Nat
  toId : Nat
deriving DecidableEq, Repr

/-- GraphData from graph-utils. -/
structure GraphData where
  nodes : List VisNode
  edges : List VisEdge
deriving DecidableEq, Repr

/-- flattenTree from graph-utils: pre-order flattening that records, for
every node, the PID of the parent under which it was reached. -/
def flattenTree : List ProcessTreeNode → Option Nat → List Flattened
  | [], _ => []
  | .mk p c :: rest, parentPid =>
      ⟨.mk p c, parentPid⟩ ::
        (flattenTree c (some p.pid) ++ flattenTree rest parentPid)

/-- Loop body of transformTreeToGraph: walks the flattened entries keeping
the accumulated node list, edge list and set of already seen PIDs.  An
entry whose PID was already seen is skipped; otherwise a node is appended,
and an edge from its recorded parent is appended when that parent PID has
already produced a node (the current PID is inserted into the seen set
before the parent check, as in the source). -/
def transformGo : List Flattened → List VisNode → List VisEdge → List Nat → GraphData
  | [], nodes, edges, _ => ⟨nodes, edges⟩
  | f :: rest, nodes, edges, seenPids =>
      let process := f.node.process
      if seenPids.contains process.pid then
        transformGo rest nodes edges seenPids
      else
        let seen1 := seenPids ++ [process.pid]
        let visNode : VisNode :=
          { id := process.pid
            label := process.process_name ++ "\n(" ++ toString process.pid ++ ")"
            riskScore := process.risk_score
            legitimacy := process.legitimacy
            processName := process.process_name
            imagePath := process.image_path
            behaviorTags := process.behavior_tags
            eventCount := process.event_count }
        let nodes1 := nodes ++ [visNode]
        let edges1 :=
          match f.parentPid with
          | some pp =>
              if seen1.contains pp then
                edges ++ [⟨toString pp ++ "-" ++ toString process.pid, pp, process.pid⟩]
              else edges
          | none => edges
        transformGo rest nodes1 edges1 seen1

/-- transformTreeToGraph from graph-utils. -/
def transformTreeToGraph (tree : List ProcessTreeNode) : GraphData :=
  transformGo (flattenTree tree none) [] [] []

/-- FilterMode from graph-utils: all | flagged | high-risk. -/
inductive FilterMode where
  | all
  | flagged
  | highRisk
deriving DecidableEq, Repr

/-- filterNodes from graph-utils: flagged keeps nodes with positive risk
score, high-risk keeps nodes with score at least 50, all keeps every node. -/
def filterNodes (nodes : List VisNode) : FilterMode → List VisNode
  | .flagged => nodes.filter (fun n => n.riskScore > 0)
  | .highRisk => nodes.filter (fun n => n.riskScore ≥ 50)
  | .all => nodes

/-- The per-node match predicate inside searchNodes, with the query already
lowercased as in the source. -/
def nodeMatches (lowerQuery : String) (n : VisNode) : Bool :=
  strContains (jsToLower n.processName) lowerQuery ||
  strContains (toString n.id) lowerQuery ||
  (match n.imagePath with
   | some p => strContains (jsToLower p) lowerQuery
   | none => false)

/-- searchNodes from graph-utils: a blank query returns the list
unchanged, otherwise the nodes are filtered by name, PID string, or image
path containment of the lowercased query. -/
def searchNodes (nodes : List VisNode) (query : String) : List VisNode :=
  if jsTrim query = "" then nodes
  else nodes.filter (nodeMatches (jsToLower query))

end GraphUtils

namespace FileUpload

/-- The default supported-format list from the upload component. -/
def supportedFormats : List String := [".pml", ".csv", ".xml"]

/-- The extension string computed by processFile: a dot followed by the
lowercased last dot-separated component of the file name (JavaScript
file.name.split(dot).pop().toLowerCase() prefixed with a dot). -/
def extOf (name : String) : String :=
  "." ++ jsToLower ((jsSplit name '.').getLastD (""))

/-- The upload decision taken by processFile: the file is submitted to the
analysis API exactly when its computed extension string is in the
supported-format list; otherwise an unsupported-format error is shown and
nothing is uploaded. -/
def uploadsFile (formats : List String) (name : String) : Bool :=
  formats.contains (extOf name)

/-- The lowercased file-name extension in the usual sense, stated from the
claim text: when the name contains a dot, a dot followed by the lowercased
part after the last dot; when the name contains no dot, the file has no
extension.  This is the claim-side reading used to compare with the
decision the code takes. -/
def specExtension (name : String) : Option String :=
  if 2 ≤ (jsSplit name '.').length then
    some ("." ++ jsToLower ((jsSplit name '.').getLastD ("")))
  else none

end FileUpload

/-
Backend core, modelled from the spec.  The repository sources contain only
the frontend; the capture decoder, process registry, process-tree builder,
detection engine and risk aggregator described by the specification are
not under src/, so the definitions in the Core namespace are written from
the specification text (sections 3, 4.2, 4.4, 4.6, 4.7).
-/
namespace Core

/-- Modelled from the spec: rule severity enumeration LOW, MEDIUM, HIGH,
CRITICAL (section 3, Rule). -/
inductive Severity where
  | LOW
  | MEDIUM
  | HIGH
  | CRITICAL
deriving DecidableEq, Repr

/-- Modelled from the spec: the tunable per-severity weight table of the
RiskAggregator (section 4.7).  The concrete constants respect the stated
example bounds: CRITICAL at least 70, HIGH at least 50, MEDIUM at least
20, LOW above 0, all at most 100. -/
def severityWeight : Severity → Nat
  | .LOW => 10
  | .MEDIUM => 25
  | .HIGH => 60
  | .CRITICAL => 90

/-- Modelled from the spec: a Finding records the matched rule, the
subject PID, the rule severity and the rule tags (section 3, Finding). -/
structure Finding where
  ruleId : String
  subjectPid : Nat
  severity : Severity
  tags : List String
deriving DecidableEq, Repr

/-- Modelled from the spec: the RiskAggregator score of a process is the
maximum of the per-severity weights contributed by any one matching rule;
severities do not additively stack, and a process with no Findings scores
zero (section 4.7). -/
def aggregateScore (findings : List Finding) : Nat :=
  findings.foldl (fun acc f => max acc (severityWeight f.severity)) 0

/-- Modelled from the spec: the behavior-tag set of a process is the union
of all matched rule tag sets (section 4.7). -/
def aggregateTags (findings : List Finding) : List String :=
  (findings.foldl (fun acc f => acc ++ f.tags) []).dedup

/-- Modelled from the spec: the ProcessSummary handed to collaborators,
with the flagged bit derived from a positive score (sections 3 and 4.7). -/
structure SummaryOut where
  pid : Nat
  risk_score : Nat
  behavior_tags : List String
  matched_rules : List String
  is_flagged : Bool
deriving DecidableEq, Repr

/-- Modelled from the spec: fold the Findings of one process into its
ProcessSummary (section 4.7). -/
def summarize (pid : Nat) (findings : List Finding) : SummaryOut :=
  let s := aggregateScore findings
  ⟨pid, s, aggregateTags findings, findings.map (·.ruleId), decide (0 < s)⟩

/-- Modelled from the spec: one normalized event belonging to a process,
restricted to the fields rule conditions can reference (operation,
accessed path, registry key; section 3, RawEvent, and section 4.6). -/
structure SpecEvent where
  operation : String
  path : String
  registryKey : String
deriving DecidableEq, Repr

/-- Modelled from the spec: a frozen ProcessRecord after decode completes
(section 3), restricted to the fields the tree builder and the detection
engine read.  The records of one analysis are kept in an arena list in
first-seen order, as the design notes prescribe (section 9). -/
structure ProcessRecord where
  pid : Nat
  name : String
  path : String
  parentPid : Option Nat
  events : List SpecEvent
deriving DecidableEq, Repr

/-- Modelled from the spec: resolve a parent PID against the records that
were finalized strictly before position bound, returning the most recent
match (section 4.4: parent resolution only looks at already-finalized
records). -/
def resolveParentAux (arena : List ProcessRecord) (pp : Nat) : Nat → Option Nat
  | 0 => none
  | j + 1 =>
      if (arena.get? j).map (·.pid) = some pp then some j
      else resolveParentAux arena pp j

/-- Modelled from the spec: the parent arena index of the record at index
i, if any.  A record with no parent PID, a self parent PID (always
rejected to prevent a cycle), or a parent PID that resolves to no earlier
record becomes a root (section 4.4). -/
def parentIdx (arena : List ProcessRecord) (i : Nat) : Option Nat :=
  match arena.get? i with
  | none => none
  | some r =>
      match r.parentPid with
      | none => none
      | some pp => if pp = r.pid then none else resolveParentAux arena pp i

/-- Modelled from the spec: the root of the tree containing the record at
index i, obtained by following parent links; terminates because a parent
index is always strictly smaller (section 4.4). -/
def rootOf (arena : List ProcessRecord) (i : Nat) : Nat :=
  match h : parentIdx arena i with
  | none => i
  | some j => rootOf arena j
termination_by i
decreasing_by
  have aux : ∀ (pp b j : Nat), resolveParentAux arena pp b = some j → j < b := by
    intro pp b
    induction b with
    | zero => intro j hh; simp [resolveParentAux] at hh
    | succ b ih =>
        intro j hh
        rw [resolveParentAux] at hh
        split at hh
        · cases hh
          exact Nat.lt_succ_self b
        · exact Nat.lt_succ_of_lt (ih j hh)
  unfold parentIdx at h
  split at h
  · simp at h
  · split at h
    · simp at h
    · split at h
      · simp at h
      · exact aux _ _ _ h

/-- Modelled from the spec: the parent edge relation of the built forest;
parentStep i j holds when the record at index i is the parent of the
record at index j (section 4.4). -/
def parentStep (arena : List ProcessRecord) (i j : Nat) : Prop :=
  parentIdx arena j = some i

/-- Modelled from the spec: i is a strict ancestor of j in the built
forest. -/
def Ancestor (arena : List ProcessRecord) (i j : Nat) : Prop :=
  Relation.TransGen (parentStep arena) i j

/-- Modelled from the spec: node j is reachable from node r by following
zero or more child edges downward. -/
def ReachesFrom (arena : List ProcessRecord) (r j : Nat) : Prop :=
  Relation.ReflTransGen (parentStep arena) r j

/-- Modelled from the spec: a root of the built forest is a node of the
arena with no resolved parent (section 4.4). -/
def isRoot (arena : List ProcessRecord) (r : Nat) : Prop :=
  r < arena.length ∧ parentIdx arena r = none

/-- Modelled from the spec: the closed set of field names a rule condition
may reference (section 9, design notes). -/
inductive RuleField where
  | process_name
  | process_path
  | operation
  | path_accessed
  | registry_key
  | parent_process
  | child_process
deriving DecidableEq, Repr

/-- Modelled from the spec: one named rule condition, a field plus a
pattern (section 3, Rule). -/
structure Condition where
  field : RuleField
  pattern : String
deriving DecidableEq, Repr

/-- Modelled from the spec: the AND or OR combinator of a rule. -/
inductive Operator where
  | AND
  | OR
deriving DecidableEq, Repr

/-- Modelled from the spec: a CompiledRule, the immutable executable form
of a rule shared read-only across evaluation (section 3). -/
structure CompiledRule where
  id : String
  name : String
  severity : Severity
  enabled : Bool
  conditions : List Condition
  operator : Operator
  tags : List String
  mitreTechnique : Option String
deriving DecidableEq, Repr

/-- Modelled from the spec: pattern matching of a condition value against a
field value, as a case-insensitive literal substring match (section 4.5;
the regex alternative of the open question in section 9 is not modelled). -/
def matchPat (pattern value : String) : Bool :=
  strContains (jsToLower value) (jsToLower pattern)

/-- Modelled from the spec: whether one condition matches the process at
arena index i.  Process-level fields match on the record itself,
event-level fields match when at least one event of the process matches,
and a condition field that cannot be located on a single process counts as
a non-match (section 4.6). -/
def condMatchesProcess (arena : List ProcessRecord) (i : Nat) (c : Condition) : Bool :=
  match arena.get? i with
  | none => false
  | some r =>
      match c.field with
      | .process_name => matchPat c.pattern r.name
      | .process_path => matchPat c.pattern r.path
      | .operation => r.events.any (fun e => matchPat c.pattern e.operation)
      | .path_accessed => r.events.any (fun e => matchPat c.pattern e.path)
      | .registry_key => r.events.any (fun e => matchPat c.pattern e.registryKey)
      | .parent_process => false
      | .child_process => false

/-- Modelled from the spec: a rule is a relationship rule when it names the
parent_process or child_process field (section 4.6). -/
def isRelationshipRule (r : CompiledRule) : Bool :=
  r.conditions.any (fun c =>
    c.field = RuleField.parent_process || c.field = RuleField.child_process)

/-- Modelled from the spec: whether one condition matches the tree edge
from the parent at index pi to the child at index ci; the parent_process
and child_process fields match the respective node name or path, other
fields are evaluated on the child (section 4.6). -/
def condMatchesEdge (arena : List ProcessRecord) (pi ci : Nat) (c : Condition) : Bool :=
  match c.field with
  | .parent_process =>
      match arena.get? pi with
      | some r => matchPat c.pattern r.name || matchPat c.pattern r.path
      | none => false
  | .child_process =>
      match arena.get? ci with
      | some r => matchPat c.pattern r.name || matchPat c.pattern r.path
      | none => false
  | _ => condMatchesProcess arena ci c

/-- Modelled from the spec: evaluation of one enabled rule against the
node at index i.  A process-scoped rule combines its conditions with AND
or OR on the process; a relationship rule is evaluated on the edge from
the parent of the node, and cannot match a root (section 4.6). -/
def evalRule (arena : List ProcessRecord) (i : Nat) (r : CompiledRule) : Bool :=
  if isRelationshipRule r then
    match parentIdx arena i with
    | some p =>
        match r.operator with
        | .AND => r.conditions.all (condMatchesEdge arena p i)
        | .OR => r.conditions.any (condMatchesEdge arena p i)
    | none => false
  else
    match r.operator with
    | .AND => r.conditions.all (condMatchesProcess arena i)
    | .OR => r.conditions.any (condMatchesProcess arena i)

/-- PID of the record at arena index i, zero when out of range. -/
def pidOf (arena : List ProcessRecord) (i : Nat) : Nat :=
  match arena.get? i with
  | some r => r.pid
  | none => 0

/-- Modelled from the spec: the DetectionEngine evaluates every enabled
compiled rule against every process node of the frozen tree and emits one
Finding per match (section 4.6).  Disabled rules are excluded from
evaluation (section 4.5). -/
def detect (arena : List ProcessRecord) (rules : List CompiledRule) : List Finding :=
  (List.range arena.length).flatMap (fun i =>
    (rules.filter (·.enabled)).filterMap (fun r =>
      if evalRule arena i r then some ⟨r.id, pidOf arena i, r.severity, r.tags⟩
      else none))

/-- Modelled from the spec: per-process aggregated scores over the whole
arena, pairing the PID of each node with the aggregate of the Findings whose
subject is that node (sections 4.6 and 4.7). -/
def scoresOf (arena : List ProcessRecord) (rules : List CompiledRule) : List (Nat × Nat) :=
  (List.range arena.length).map (fun i =>
    (pidOf arena i,
     aggregateScore ((detect arena rules).filter (fun f => f.subjectPid = pidOf arena i))))

/-- Modelled from the spec: the outcome of one detection pass over a
frozen tree: the tree is handed back unchanged (frozen after decode,
section 3), together with the Findings and the aggregated scores. -/
structure AnalysisRun where
  tree : List ProcessRecord
  findings : List Finding
  scores : List (Nat × Nat)
deriving DecidableEq, Repr

/-- Modelled from the spec: run detection plus aggregation on a frozen
tree with a compiled rule set (sections 4.6 and 4.7). -/
def runDetection (tree : List ProcessRecord) (rules : List CompiledRule) : AnalysisRun :=
  ⟨tree, detect tree rules, scoresOf tree rules⟩

/-- Modelled from the spec: decode errors; the first three are
header-fatal, CorruptRecord is raised for a record whose length field
cannot be trusted (sections 4.2 and 7). -/
inductive DecodeError where
  | BadMagic
  | UnsupportedVersion
  | TruncatedHeader
  | CorruptRecord
deriving DecidableEq, Repr

/-- Modelled from the spec: record-level decode warnings accumulated
alongside an otherwise usable result (section 7). -/
inductive DecodeWarning where
  | CorruptRecord
  | TruncatedRecord
deriving DecidableEq, Repr

/-- Modelled from the spec: the result of a completed decode, the decoded
event records plus the accumulated warning list (section 7). -/
structure DecodeResult where
  events : List (List Nat)
  warnings : List DecodeWarning
deriving DecidableEq, Repr

/-- Modelled from the spec: the container magic byte (section 4.2; the
real on-disk layout is an open question in section 9, so a minimal
faithful layout is used: magic byte, version byte, record-count byte, then
length-prefixed event records). -/
def MAGIC : Nat := 80

/-- Modelled from the spec: the single supported format version. -/
def VERSION : Nat := 1

/-- Modelled from the spec: decode count event records from the byte
stream.  Each record is a length byte followed by that many payload bytes.
A zero length field cannot be trusted and is fatal for the whole decode; a
record that announces more bytes than remain is truncated, so it is
reported as a warning and decoding stops at the already-decoded records;
running out of bytes before the declared record count is likewise a
truncation warning (sections 4.2 and 7). -/
def decodeRecords : List Nat → Nat → Except DecodeError DecodeResult
  | _, 0 => .ok ⟨[], []⟩
  | [], _ + 1 => .ok ⟨[], [.TruncatedRecord]⟩
  | len :: rest, n + 1 =>
      if len = 0 then .error .CorruptRecord
      else if rest.length < len then .ok ⟨[], [.TruncatedRecord]⟩
      else
        match decodeRecords (rest.drop len) n with
        | .error e => .error e
        | .ok r => .ok ⟨rest.take len :: r.events, r.warnings⟩

/-- Modelled from the spec: open a capture and decode it.  The header is
validated before any event is exposed: fewer than three bytes is a
truncated header, then the magic and version bytes are checked; all three
header failures abort the whole decode with no partial output (sections
4.2 and 7). -/
def decode (b : List Nat) : Except DecodeError DecodeResult :=
  match b with
  | magic :: version :: count :: rest =>
      if magic ≠ MAGIC then .error .BadMagic
      else if version ≠ VERSION then .error .UnsupportedVersion
      else decodeRecords rest count
  | _ => .error .TruncatedHeader

/-- Modelled from the spec: the byte encoding of one event record, its
length byte followed by its payload. -/
def encodeRecord (e : List Nat) : List Nat :=
  e.length :: e

/-- Modelled from the spec: the byte encoding of a whole valid capture:
header followed by the encoded event records. -/
def encode (events : List (List Nat)) : List Nat :=
  MAGIC :: VERSION :: events.length :: (events.map encodeRecord).flatten

/-- Total byte length of the encoded record table of a capture. -/
def recTableLen : List (List Nat) → Nat
  | [] => 0
  | e :: es => (e.length + 1) + recTableLen es

/-- A concrete arena exhibiting PID reuse: the same PID 5 is held by two
distinct logical processes, as allowed by section 3 of the spec (PIDs MAY
be reused; identity is the (PID, first-seen) pair). -/
def dupArena : List ProcessRecord :=
  [⟨5, "svchost.exe", "C:/Windows/System32/svchost.exe", none, []⟩,
   ⟨5, "evil.exe", "C:/Temp/evil.exe", none, []⟩]

end Core

/-
Theorems.  Helper lemmas come first, then one theorem per claim with its
witness or counterexample.
-/

theorem resolveParentAux_lt {arena : List Core.ProcessRecord} {pp : Nat} :
    ∀ {b j : Nat}, Core.resolveParentAux arena pp b = some j → j < b := by
  intro b
  induction b with
  | zero => intro j h; simp [Core.resolveParentAux] at h
  | succ b ih =>
      intro j h
      rw [Core.resolveParentAux] at h
      split at h
      · cases h
        exact Nat.lt_succ_self b
      · exact Nat.lt_succ_of_lt (ih h)

theorem parentIdx_lt {arena : List Core.ProcessRecord} {i j : Nat}
    (h : Core.parentIdx arena i = some j) : j < i := by
  unfold Core.parentIdx at h
  split at h
  · simp at h
  · split at h
    · simp at h
    · split at h
      · simp at h
      · exact resolveParentAux_lt h

theorem rootOf_parent_none {arena : List Core.ProcessRecord} {i : Nat}
    (h : Core.parentIdx arena i = none) : Core.rootOf arena i = i := by
  rw [Core.rootOf]
  split <;> simp_all

theorem rootOf_parent_some {arena : List Core.ProcessRecord} {i j : Nat}
    (h : Core.parentIdx arena i = some j) :
    Core.rootOf arena i = Core.rootOf arena j := by
  rw [Core.rootOf]
  split <;> simp_all

theorem rootOf_le (arena : List Core.ProcessRecord) :
    ∀ i, Core.rootOf arena i ≤ i := by
  intro i
  induction i using Nat.strong_induction_on with
  | _ i ih =>
      cases h : Core.parentIdx arena i with
      | none => rw [rootOf_parent_none h]
      | some j =>
          rw [rootOf_parent_some h]
          exact Nat.le_trans (ih j (parentIdx_lt h)) (Nat.le_of_lt (parentIdx_lt h))

theorem rootOf_no_parent_and_reaches (arena : List Core.ProcessRecord) :
    ∀ i, Core.parentIdx arena (Core.rootOf arena i) = none ∧
      Core.ReachesFrom arena (Core.rootOf arena i) i := by
  intro i
  induction i using Nat.strong_induction_on with
  | _ i ih =>
      cases h : Core.parentIdx arena i with
      | none =>
          exact ⟨by rw [rootOf_parent_none h]; exact h,
            by rw [rootOf_parent_none h]; exact Relation.ReflTransGen.refl⟩
      | some j =>
          obtain ⟨h1, h2⟩ := ih j (parentIdx_lt h)
          refine ⟨by rw [rootOf_parent_some h]; exact h1, ?_⟩
          rw [rootOf_parent_some h]
          exact Relation.ReflTransGen.tail h2 h

theorem reaches_root_unique (arena : List Core.ProcessRecord) :
    ∀ i r, Core.parentIdx arena r = none → Core.ReachesFrom arena r i →
      r = Core.rootOf arena i := by
  intro i
  induction i using Nat.strong_induction_on with
  | _ i ih =>
      intro r hr hreach
      rcases Relation.ReflTransGen.cases_tail hreach with heq | ⟨c, hrc, hstep⟩
      · subst heq
        rw [rootOf_parent_none hr]
      · rw [rootOf_parent_some hstep]
        exact ih c (parentIdx_lt hstep) r hr hrc

theorem ancestor_lt {arena : List Core.ProcessRecord} {a n : Nat}
    (h : Core.Ancestor arena a n) : a < n := by
  induction h with
  | single h1 => exact parentIdx_lt h1
  | tail _ h2 ih => exact Nat.lt_trans ih (parentIdx_lt h2)

/-- C1 (amended): in every forest built by the ProcessTreeBuilder model,
no node is its own ancestor and every node is reachable from exactly one
root; the further assertion of the claim that no PID occurs at more than one
position fails under PID reuse and is refuted separately. -/
theorem c1_forest_acyclic_unique_root (arena : List Core.ProcessRecord)
    (i : Nat) (hi : i < arena.length) :
    ¬ Core.Ancestor arena i i ∧
    Core.isRoot arena (Core.rootOf arena i) ∧
    Core.ReachesFrom arena (Core.rootOf arena i) i ∧
    ∀ r, Core.isRoot arena r → Core.ReachesFrom arena r i →
      r = Core.rootOf arena i := by
  obtain ⟨hnp, hreach⟩ := rootOf_no_parent_and_reaches arena i
  refine ⟨fun hanc => absurd (ancestor_lt hanc) (Nat.lt_irrefl i), ?_, hreach, ?_⟩
  · exact ⟨Nat.lt_of_le_of_lt (rootOf_le arena i) hi, hnp⟩
  · intro r hroot hr
    exact reaches_root_unique arena i r hroot.2 hr

/-- C1 counterexample: a delivered forest in which the reused PID 5 labels
two distinct positions (two roots), refuting the claim that no PID occurs
at more than one position in the forest. -/
theorem c1_counterexample_pid_reuse :
    Core.isRoot Core.dupArena 0 ∧ Core.isRoot Core.dupArena 1 ∧
    Core.pidOf Core.dupArena 0 = 5 ∧ Core.pidOf Core.dupArena 1 = 5 := by
  refine ⟨⟨by decide, by decide⟩, ⟨by decide, by decide⟩, by decide, by decide⟩

/-- C1 witness: the amended theorem applied to a concrete arena. -/
theorem c1_witness :
    0 < Core.dupArena.length ∧
    ¬ Core.Ancestor Core.dupArena 0 0 ∧
    Core.isRoot Core.dupArena (Core.rootOf Core.dupArena 0) :=
  ⟨by decide, (c1_forest_acyclic_unique_root Core.dupArena 0 (by decide)).1,
   (c1_forest_acyclic_unique_root Core.dupArena 0 (by decide)).2.1⟩

/-- C2: a process with no Findings aggregates to score zero and is not
flagged, and the flagged filter of the graph utilities selects exactly the
nodes with risk score above zero. -/
theorem c2_no_findings_unflagged :
    (∀ (pid : Nat) (findings : List Core.Finding), findings = [] →
       (Core.summarize pid findings).risk_score = 0 ∧
       (Core.summarize pid findings).is_flagged = false) ∧
    (∀ (nodes : List GraphUtils.VisNode) (n : GraphUtils.VisNode),
       n ∈ GraphUtils.filterNodes nodes .flagged ↔ n ∈ nodes ∧ n.riskScore > 0) := by
  constructor
  · rintro pid findings rfl
    exact ⟨rfl, rfl⟩
  · intro nodes n
    simp [GraphUtils.filterNodes]

/-- C2 witness: the theorem applied to a process with no findings and to a
concrete node list. -/
theorem c2_witness :
    (Core.summarize 42 []).risk_score = 0 ∧
    (Core.summarize 42 []).is_flagged = false ∧
    (⟨7, "a", 55, "unknown", "a.exe", none, [], 1⟩ : GraphUtils.VisNode) ∈
      GraphUtils.filterNodes [⟨7, "a", 55, "unknown", "a.exe", none, [], 1⟩] .flagged :=
  ⟨(c2_no_findings_unflagged.1 42 [] rfl).1,
   (c2_no_findings_unflagged.1 42 [] rfl).2,
   (c2_no_findings_unflagged.2 [⟨7, "a", 55, "unknown", "a.exe", none, [], 1⟩]
      ⟨7, "a", 55, "unknown", "a.exe", none, [], 1⟩).mpr ⟨by decide, by decide⟩⟩

/-- C3: the legitimacy bucket is a function of the risk score alone, and
the downstream bucketing maps a score of at least 50 to high, at least 20
and below 50 to medium, above 0 and below 20 to low, and at most 0 to
none. -/
theorem c3_bucket_from_score (s t : Int) :
    (s = t → ApiTypes.getRiskLevel s = ApiTypes.getRiskLevel t) ∧
    (50 ≤ s → ApiTypes.getRiskLevel s = .high) ∧
    (20 ≤ s ∧ s < 50 → ApiTypes.getRiskLevel s = .medium) ∧
    (0 < s ∧ s < 20 → ApiTypes.getRiskLevel s = .low) ∧
    (s ≤ 0 → ApiTypes.getRiskLevel s = .none) := by
  refine ⟨fun h => by rw [h], ?_, ?_, ?_, ?_⟩ <;>
    (intro h; simp only [ApiTypes.getRiskLevel]; split_ifs <;> first | rfl | omega)

/-- C3 witness: the theorem applied at concrete scores in each band. -/
theorem c3_witness :
    ApiTypes.getRiskLevel 72 = .high ∧ ApiTypes.getRiskLevel 35 = .medium ∧
    ApiTypes.getRiskLevel 12 = .low ∧ ApiTypes.getRiskLevel 0 = .none :=
  ⟨(c3_bucket_from_score 72 72).2.1 (by decide),
   (c3_bucket_from_score 35 35).2.2.1 ⟨by decide, by decide⟩,
   (c3_bucket_from_score 12 12).2.2.2.1 ⟨by decide, by decide⟩,
   (c3_bucket_from_score 0 0).2.2.2.2 (by decide)⟩

theorem aggregateScore_foldl_le (b : Nat) :
    ∀ (findings : List Core.Finding) (acc : Nat), acc ≤ b →
      (∀ f ∈ findings, Core.severityWeight f.severity ≤ b) →
      findings.foldl (fun acc f => max acc (Core.severityWeight f.severity)) acc ≤ b := by
  intro findings
  induction findings with
  | nil => intro acc hacc _; simpa using hacc
  | cons f fs ih =>
      intro acc hacc hall
      simp only [List.foldl_cons]
      exact ih _ (Nat.max_le.mpr ⟨hacc, hall f (by simp)⟩)
        (fun g hg => hall g (by simp [hg]))

/-- C5: the aggregated risk score never exceeds 100, and findings of one
common severity never stack above the single-match ceiling of that severity. -/
theorem c5_aggregate_bounds (findings : List Core.Finding) :
    Core.aggregateScore findings ≤ 100 ∧
    ∀ s : Core.Severity, (∀ f ∈ findings, f.severity = s) →
      Core.aggregateScore findings ≤ Core.severityWeight s := by
  constructor
  · exact aggregateScore_foldl_le 100 findings 0 (Nat.zero_le _)
      (fun f _ => by cases hf : f.severity <;> simp [Core.severityWeight, hf])
  · intro s h
    exact aggregateScore_foldl_le (Core.severityWeight s) findings 0 (Nat.zero_le _)
      (fun f hf => by rw [h f hf])

/-- C5 witness: two HIGH findings stay at the HIGH ceiling. -/
theorem c5_witness :
    Core.aggregateScore
      [⟨"r1", 9, .HIGH, []⟩, ⟨"r2", 9, .HIGH, []⟩] ≤ Core.severityWeight .HIGH ∧
    Core.aggregateScore [⟨"r1", 9, .HIGH, []⟩, ⟨"r2", 9, .HIGH, []⟩] = 60 :=
  ⟨(c5_aggregate_bounds _).2 .HIGH (by decide), by decide⟩

/-- C6: re-running detection plus aggregation on the frozen tree produced
by a previous run, with the same rule set, yields the same Findings and
the same aggregated scores, and hands the tree back unchanged. -/
theorem c6_detection_idempotent (tree : List Core.ProcessRecord)
    (rules : List Core.CompiledRule) :
    (Core.runDetection (Core.runDetection tree rules).tree rules).findings
      = (Core.runDetection tree rules).findings ∧
    (Core.runDetection (Core.runDetection tree rules).tree rules).scores
      = (Core.runDetection tree rules).scores ∧
    (Core.runDetection tree rules).tree = tree :=
  ⟨rfl, rfl, rfl⟩

/-- C4 (amended): for every file name that has an extension in the usual
sense (the name contains a dot), the loader submits the file exactly when
the lowercased extension is in the supported-format list; the original
claim additionally covers dotless names, on which it fails and is refuted
separately. -/
theorem c4_extension_gate (name e : String)
    (h : FileUpload.specExtension name = some e) :
    FileUpload.uploadsFile FileUpload.supportedFormats name = true ↔
      e ∈ FileUpload.supportedFormats := by
  unfold FileUpload.specExtension at h
  split at h
  · have hext : FileUpload.extOf name = e := by
      unfold FileUpload.extOf
      exact Option.some.inj h
    rw [FileUpload.uploadsFile, hext]
    simp
  · simp at h

/-- C4 counterexample: a file named csv, which has no extension, is
nevertheless submitted to the analysis API, because processFile treats
the whole dotless name as the extension. -/
theorem c4_counterexample :
    FileUpload.uploadsFile FileUpload.supportedFormats ("csv") = true ∧
    FileUpload.specExtension ("csv") = none := by
  exact ⟨by decide, by decide⟩

/-- C4 witness: the amended theorem applied to a dotted file name. -/
theorem c4_witness :
    FileUpload.uploadsFile FileUpload.supportedFormats ("Report.PML") = true :=
  (c4_extension_gate ("Report.PML") (".pml") (by decide)).mpr (by decide)

/-- C9 counterexample: at score 60 the shared helper says high while the
process search component shows the medium color, so the two bucketings
differ. -/
theorem c9_counterexample :
    ProcessSearch.colorToLevel (ProcessSearch.getRiskColor 60)
      ≠ ApiTypes.getRiskLevel 60 := by
  decide

/-- C9 (amended): the bucket implied by the risk color of the search component
agrees with getRiskLevel exactly for scores below 20, between 30 and 49,
or at least 70; on 20 to 29 the color says low where getRiskLevel says
medium, and on 50 to 69 the color says medium where getRiskLevel says
high. -/
theorem c9_buckets_agree_iff (s : Int) :
    (ProcessSearch.colorToLevel (ProcessSearch.getRiskColor s)
       = ApiTypes.getRiskLevel s) ↔
    (s < 20 ∨ (30 ≤ s ∧ s < 50) ∨ 70 ≤ s) := by
  simp only [ProcessSearch.getRiskColor, ApiTypes.getRiskLevel]
  split_ifs <;>
    simp_all [ProcessSearch.colorToLevel, DesignTokens.risk_high,
      DesignTokens.risk_medium, DesignTokens.risk_low,
      DesignTokens.status_success] <;> omega

/-- C10: searchNodes is an order-preserving filter with identity on blank
queries: a query that trims to the empty string returns the node list
unchanged, and any other query returns exactly the subsequence of nodes
whose lowercased process name, PID string, or lowercased image path
contains the lowercased query. -/
theorem c10_search_filter (nodes : List GraphUtils.VisNode) (query : String) :
    (jsTrim query = "" → GraphUtils.searchNodes nodes query = nodes) ∧
    (jsTrim query ≠ "" →
      (GraphUtils.searchNodes nodes query).Sublist nodes ∧
      ∀ n, n ∈ GraphUtils.searchNodes nodes query ↔
        n ∈ nodes ∧
        (strContains (jsToLower n.processName) (jsToLower query) ||
         strContains (toString n.id) (jsToLower query) ||
         (match n.imagePath with
          | some p => strContains (jsToLower p) (jsToLower query)
          | none => false)) = true) := by
  constructor
  · intro h
    simp [GraphUtils.searchNodes, h]
  · intro h
    refine ⟨?_, ?_⟩
    · simp only [GraphUtils.searchNodes, if_neg h]
      exact List.filter_sublist _
    · intro n
      simp only [GraphUtils.searchNodes, if_neg h, List.mem_filter,
        GraphUtils.nodeMatches]

/-- C10 witness: the theorem applied to a concrete node list with a blank
query and with a matching query. -/
theorem c10_witness :
    GraphUtils.searchNodes
      [⟨10, "a", 60, "suspicious", "PowerShell.exe",
        some ("C:/Windows/powershell.exe"), [], 4⟩,
       ⟨11, "b", 0, "legitimate", "notepad.exe", none, [], 2⟩] "   " =
      [⟨10, "a", 60, "suspicious", "PowerShell.exe",
        some ("C:/Windows/powershell.exe"), [], 4⟩,
       ⟨11, "b", 0, "legitimate", "notepad.exe", none, [], 2⟩] ∧
    (⟨10, "a", 60, "suspicious", "PowerShell.exe",
        some ("C:/Windows/powershell.exe"), [], 4⟩ : GraphUtils.VisNode) ∈
      GraphUtils.searchNodes
        [⟨10, "a", 60, "suspicious", "PowerShell.exe",
          some ("C:/Windows/powershell.exe"), [], 4⟩,
         ⟨11, "b", 0, "legitimate", "notepad.exe", none, [], 2⟩] "POWER" :=
  ⟨(c10_search_filter _ ("   ")).1 (by decide),
   (((c10_search_filter _ ("POWER")).2 (by decide)).2 _).mpr
     ⟨by decide, by decide⟩⟩

theorem transformGo_invariant :
    ∀ (fs : List GraphUtils.Flattened) (nodes : List GraphUtils.VisNode)
      (edges : List GraphUtils.VisEdge) (seen : List Nat),
      seen = nodes.map (·.id) →
      seen.Nodup →
      (∀ e ∈ edges, e.fromId ∈ seen ∧ e.toId ∈ seen) →
      ((GraphUtils.transformGo fs nodes edges seen).nodes.map (·.id)).Nodup ∧
      (∀ e ∈ (GraphUtils.transformGo fs nodes edges seen).edges,
        e.fromId ∈ (GraphUtils.transformGo fs nodes edges seen).nodes.map (·.id) ∧
        e.toId ∈ (GraphUtils.transformGo fs nodes edges seen).nodes.map (·.id)) := by
  intro fs
  induction fs with
  | nil =>
      intro nodes edges seen hseen hnd hedges
      subst hseen
      rw [GraphUtils.transformGo]
      exact ⟨hnd, hedges⟩
  | cons f rest ih =>
      intro nodes edges seen hseen hnd hedges
      rw [GraphUtils.transformGo]
      by_cases hc : seen.contains f.node.process.pid
      · simp only [hc, if_true]
        exact ih nodes edges seen hseen hnd hedges
      · simp only [hc, Bool.false_eq_true, if_false]
        have hpid : f.node.process.pid ∉ seen := by simp_all
        apply ih
        · rw [hseen]
          simp
        · rw [List.nodup_append]
          refine ⟨hnd, List.nodup_singleton _, ?_⟩
          intro a ha hb
          rw [List.mem_singleton] at hb
          subst hb
          exact hpid ha
        · intro e he
          have hmono : ∀ x, x ∈ seen → x ∈ seen ++ [f.node.process.pid] :=
            fun x hx => List.mem_append_left _ hx
          cases hp : f.parentPid with
          | none =>
              rw [hp] at he
              obtain ⟨h1, h2⟩ := hedges e he
              exact ⟨hmono _ h1, hmono _ h2⟩
          | some pp =>
              rw [hp] at he
              by_cases hsp : (seen ++ [f.node.process.pid]).contains pp
              · simp only [hsp, if_true] at he
                rcases List.mem_append.mp he with hold | hnew
                · obtain ⟨h1, h2⟩ := hedges e hold
                  exact ⟨hmono _ h1, hmono _ h2⟩
                · rw [List.mem_singleton] at hnew
                  subst hnew
                  exact ⟨by simpa using hsp, by simp⟩
              · simp only [Bool.not_eq_true] at hsp
                simp only [hsp, Bool.false_eq_true, if_false] at he
                obtain ⟨h1, h2⟩ := hedges e he
                exact ⟨hmono _ h1, hmono _ h2⟩

theorem decodeRecords_truncated :
    ∀ (rs : List (List Nat)), (∀ e ∈ rs, e ≠ []) →
      ∀ (i d : Nat), i < rs.length → d < 1 + ((rs.get? i).getD []).length →
      Core.decodeRecords
          (((rs.map Core.encodeRecord).flatten).take (Core.recTableLen (rs.take i) + d))
          rs.length
        = .ok ⟨rs.take i, [.TruncatedRecord]⟩ := by
  intro rs
  induction rs with
  | nil => intro _ i d hi _; simp at hi
  | cons r rest ih =>
      intro hne i d hi hd
      have hr : r ≠ [] := hne r (by simp)
      have hrlen : r.length ≠ 0 := fun hz => hr (List.length_eq_zero.mp hz)
      cases i with
      | zero =>
          have hd_r : d < 1 + r.length := by simpa using hd
          rw [show Core.recTableLen ((r :: rest).take 0) + d = d from by
            simp [Core.recTableLen]]
          cases d with
          | zero =>
              rw [List.take_zero]
              rw [show (r :: rest).length = rest.length + 1 from by simp]
              rfl
          | succ d2 =>
              have hd2 : d2 < r.length := by omega
              simp only [List.map_cons, List.flatten_cons, List.length_cons]
              rw [show Core.encodeRecord r = r.length :: r from rfl, List.cons_append]
              rw [List.take_succ_cons]
              rw [Core.decodeRecords, if_neg hrlen]
              have hlt :
                  (((r ++ (rest.map Core.encodeRecord).flatten).take d2).length < r.length) := by
                rw [List.length_take]
                exact Nat.lt_of_le_of_lt (Nat.min_le_left _ _) hd2
              rw [if_pos hlt]
              rfl
      | succ i2 =>
          have hi2 : i2 < rest.length := by simpa using hi
          have hd2 : d < 1 + ((rest.get? i2).getD []).length := by simpa using hd
          simp only [List.map_cons, List.flatten_cons, List.length_cons,
            List.take_succ_cons]
          rw [show Core.recTableLen (r :: rest.take i2) + d
                = (Core.encodeRecord r).length + (Core.recTableLen (rest.take i2) + d) from by
            simp [Core.recTableLen, Core.encodeRecord]
            omega]
          rw [List.take_append]
          rw [show Core.encodeRecord r = r.length :: r from rfl, List.cons_append]
          rw [Core.decodeRecords, if_neg hrlen]
          have hge :
              ¬ ((r ++ ((rest.map Core.encodeRecord).flatten).take
                    (Core.recTableLen (rest.take i2) + d)).length < r.length) := by
            simp [List.length_append]
          rw [if_neg hge, List.take_left, List.drop_left]
          rw [ih (fun x hx => hne x (by simp [hx])) i2 d hi2 hd2]

/-- C7 (amended): truncating a valid capture at any byte offset inside an
event record yields a TruncatedRecord warning and a partial result holding
exactly the records before the corrupt one (empty when the cut lies inside
the first record); a truncated header aborts the whole decode with no
partial output, and a record whose length field cannot be trusted aborts
the whole decode with CorruptRecord. -/
theorem c7_truncated_capture (events : List (List Nat))
    (hne : ∀ e ∈ events, e ≠ []) (i d : Nat) (hi : i < events.length)
    (hd : d < 1 + ((events.get? i).getD []).length) :
    Core.decode ((Core.encode events).take
        (3 + (Core.recTableLen (events.take i) + d)))
      = .ok ⟨events.take i, [.TruncatedRecord]⟩ ∧
    (∀ k, k < 3 → Core.decode ((Core.encode events).take k)
      = .error .TruncatedHeader) ∧
    (∀ (n : Nat) (rest : List Nat),
      Core.decode (Core.MAGIC :: Core.VERSION :: (n + 1) :: 0 :: rest)
        = .error .CorruptRecord) := by
  refine ⟨?_, ?_, ?_⟩
  · rw [show Core.encode events
        = [Core.MAGIC, Core.VERSION, events.length]
            ++ (events.map Core.encodeRecord).flatten from rfl]
    rw [show (3 : Nat) + (Core.recTableLen (events.take i) + d)
        = ([Core.MAGIC, Core.VERSION, events.length] : List Nat).length
            + (Core.recTableLen (events.take i) + d) from by simp]
    rw [List.take_append]
    rw [show ([Core.MAGIC, Core.VERSION, events.length] : List Nat)
          ++ ((events.map Core.encodeRecord).flatten).take
              (Core.recTableLen (events.take i) + d)
        = Core.MAGIC :: Core.VERSION :: events.length ::
            ((events.map Core.encodeRecord).flatten).take
              (Core.recTableLen (events.take i) + d) from by simp]
    rw [Core.decode, if_neg (by simp), if_neg (by simp)]
    exact decodeRecords_truncated events hne i d hi hd
  · intro k hk
    interval_cases k
    · rfl
    · rfl
    · rfl
  · intro n rest
    rfl

/-- C7 counterexample: a valid one-record capture truncated inside its
only record decodes to a TruncatedRecord warning with an empty record
list, so the partial result carries no records, against the claim of a
non-empty partial result. -/
theorem c7_counterexample :
    Core.decode ((Core.encode [[7]]).take 4)
      = .ok ⟨[], [.TruncatedRecord]⟩ := rfl

/-- C7 witness: the amended theorem applied to a concrete two-record
capture cut inside the second record. -/
theorem c7_witness :
    Core.decode ((Core.encode [[7], [8, 9]]).take
        (3 + (Core.recTableLen [[7]] + 1)))
      = .ok ⟨[[7]], [.TruncatedRecord]⟩ :=
  (c7_truncated_capture [[7], [8, 9]] (by decide) 1 1 (by decide) (by decide)).1

/-- C8: for every input forest, including forests with repeated PIDs, the
graph produced by transformTreeToGraph is well formed: node ids are
pairwise distinct and every edge endpoint is the id of a node in the node
list. -/
theorem c8_graph_well_formed (tree : List GraphUtils.ProcessTreeNode) :
    ((GraphUtils.transformTreeToGraph tree).nodes.map (·.id)).Nodup ∧
    (∀ e ∈ (GraphUtils.transformTreeToGraph tree).edges,
      e.fromId ∈ (GraphUtils.transformTreeToGraph tree).nodes.map (·.id) ∧
      e.toId ∈ (GraphUtils.transformTreeToGraph tree).nodes.map (·.id)) := by
  have h := transformGo_invariant (GraphUtils.flattenTree tree none) [] [] []
    (by simp) (by simp) (by simp)
  rw [GraphUtils.transformTreeToGraph]
  exact h

/-- C8 witness: the theorem applied to a concrete two-node tree, locating
the endpoints of its one edge among the node ids. -/
theorem c8_witness :
    (⟨toString 1 ++ "-" ++ toString 2, 1, 2⟩ : GraphUtils.VisEdge) ∈
      (GraphUtils.transformTreeToGraph
        [.mk ⟨1, "winword.exe", none, 0, "legitimate", [], 1⟩
          [.mk ⟨2, "cmd.exe", none, 80, "malicious", [], 1⟩ []]]).edges ∧
    (1 : Nat) ∈
      (GraphUtils.transformTreeToGraph
        [.mk ⟨1, "winword.exe", none, 0, "legitimate", [], 1⟩
          [.mk ⟨2, "cmd.exe", none, 80, "malicious", [], 1⟩ []]]).nodes.map (·.id) :=
  ⟨by simp +decide [GraphUtils.transformTreeToGraph, GraphUtils.flattenTree,
      GraphUtils.transformGo],
   ((c8_graph_well_formed
       [.mk ⟨1, "winword.exe", none, 0, "legitimate", [], 1⟩
         [.mk ⟨2, "cmd.exe", none, 80, "malicious", [], 1⟩ []]]).2
     ⟨toString 1 ++ "-" ++ toString 2, 1, 2⟩
     (by simp +decide [GraphUtils.transformTreeToGraph, GraphUtils.flattenTree,
        GraphUtils.transformGo])).1⟩
